import Mathlib

/-!
Verification of the PortfolioAnalyzer core (src/portfolio/aggregator.py,
calculator.py, risk_analyzer.py, optimizer.py, src/utils/validators.py)
against its natural-language specification.

Modelling conventions:
* Python floats are modelled by the rationals `ℚ`; `round(x, 2)` is modelled
  by `pyRound2` (round-half-to-even at two decimals, the documented semantics
  of Python `round`).  Quantities annualised with `np.sqrt(252)` are stated
  over `ℝ`.
* Market data (current prices, historical-return derived metrics, correlation
  matrices) is obtained by the code through I/O collaborators in
  `src/database/data_loader.py` (PostgreSQL / yfinance).  It is modelled as an
  explicit environment `MarketEnv` passed to the aggregation pipeline; the
  data-flow of quantities, values, owners, weights and totals is embedded
  exactly as written in the source.
* Python dicts (insertion ordered) are modelled as association lists with
  update-in-place / append-at-end semantics.
* In-place mutation (`apply_scenario_to_all`) is modelled by explicit state
  passing: the function returns the updated scenario value.
-/

/-- Round-half-to-even of a rational to an integer (the rounding mode of
Python `round`).  `Rat.floor` is used rather than `⌊·⌋` so that the function
evaluates by kernel reduction. -/
def pyRoundInt (x : ℚ) : ℤ :=
  if x - (Rat.floor x : ℚ) < 1/2 then Rat.floor x
  else if 1/2 < x - (Rat.floor x : ℚ) then Rat.floor x + 1
  else if Rat.floor x % 2 = 0 then Rat.floor x else Rat.floor x + 1

/-- Python `round(x, 2)`: round-half-to-even at two decimal places. -/
def pyRound2 (x : ℚ) : ℚ := (pyRoundInt (100 * x) : ℚ) / 100

theorem ratFloor_eq_floor (x : ℚ) : Rat.floor x = ⌊x⌋ := by
  rw [Rat.floor_def', Rat.floor_def]

theorem pyRoundInt_eq (x : ℚ) :
    pyRoundInt x =
      if x - (⌊x⌋ : ℚ) < 1/2 then ⌊x⌋
      else if 1/2 < x - (⌊x⌋ : ℚ) then ⌊x⌋ + 1
      else if ⌊x⌋ % 2 = 0 then ⌊x⌋ else ⌊x⌋ + 1 := by
  simp [pyRoundInt, ratFloor_eq_floor]

theorem pyRoundInt_intCast (z : ℤ) : pyRoundInt (z : ℚ) = z := by
  simp [pyRoundInt_eq]

theorem floor_le_pyRoundInt (x : ℚ) : ⌊x⌋ ≤ pyRoundInt x := by
  rw [pyRoundInt_eq]
  split
  · exact le_refl _
  · split
    · omega
    · split <;> omega

theorem pyRoundInt_le_ceil (x : ℚ) : pyRoundInt x ≤ ⌈x⌉ := by
  rw [pyRoundInt_eq]
  have hfl : (⌊x⌋ : ℚ) ≤ x := Int.floor_le x
  have hfc : ⌊x⌋ ≤ ⌈x⌉ := Int.floor_le_ceil x
  split
  · exact hfc
  · next hr =>
    push_neg at hr
    have hlt : (⌊x⌋ : ℚ) < x := by linarith
    have hceil : ⌊x⌋ < ⌈x⌉ := by
      have hx2 : x ≤ (⌈x⌉ : ℚ) := Int.le_ceil x
      exact_mod_cast lt_of_lt_of_le hlt hx2
    split
    · omega
    · split <;> omega

theorem pyRoundInt_le_of_le (x : ℚ) (z : ℤ) (h : x ≤ (z : ℚ)) : pyRoundInt x ≤ z :=
  le_trans (pyRoundInt_le_ceil x) (Int.ceil_le.mpr h)

theorem le_pyRoundInt_of_le (x : ℚ) (z : ℤ) (h : (z : ℚ) ≤ x) : z ≤ pyRoundInt x :=
  le_trans (Int.le_floor.mpr h) (floor_le_pyRoundInt x)

theorem abs_pyRoundInt_sub (x : ℚ) : |(pyRoundInt x : ℚ) - x| ≤ 1/2 := by
  rw [pyRoundInt_eq]
  have h0 : (⌊x⌋ : ℚ) ≤ x := Int.floor_le x
  have h1 : x < (⌊x⌋ : ℚ) + 1 := Int.lt_floor_add_one x
  split
  · rw [abs_le]; constructor <;> simp <;> linarith
  · next hr =>
    push_neg at hr
    split
    · next hr2 =>
      rw [abs_le]
      push_cast
      constructor <;> linarith
    · next hr2 =>
      push_neg at hr2
      have heq : x - (⌊x⌋ : ℚ) = 1/2 := le_antisymm hr2 hr
      split
      · rw [abs_le]; constructor <;> linarith
      · rw [abs_le]
        push_cast
        constructor <;> linarith

theorem abs_pyRound2_sub (x : ℚ) : |pyRound2 x - x| ≤ 1/200 := by
  unfold pyRound2
  have h := abs_pyRoundInt_sub (100 * x)
  have h100 : |(pyRoundInt (100 * x) : ℚ) / 100 - x| = |(pyRoundInt (100 * x) : ℚ) - 100 * x| / 100 := by
    rw [← abs_of_pos (show (0:ℚ) < 100 by norm_num), ← abs_div]
    congr 1
    field_simp
  rw [h100]
  rw [div_le_div_iff (by norm_num) (by norm_num)]
  linarith [h]

theorem pyRound2_zero : pyRound2 0 = 0 := by
  have h := pyRoundInt_intCast 0
  unfold pyRound2
  rw [show (100 : ℚ) * 0 = ((0 : ℤ) : ℚ) by norm_num, h]
  norm_num

theorem pyRound2_nonneg (x : ℚ) (hx : 0 ≤ x) : 0 ≤ pyRound2 x := by
  unfold pyRound2
  have : (0 : ℤ) ≤ pyRoundInt (100 * x) :=
    le_pyRoundInt_of_le _ 0 (by push_cast; linarith)
  positivity

theorem pyRound2_le_of_le_int (x : ℚ) (z : ℤ) (h : x ≤ (z : ℚ)) :
    pyRound2 x ≤ (z : ℚ) := by
  unfold pyRound2
  have : pyRoundInt (100 * x) ≤ 100 * z :=
    pyRoundInt_le_of_le _ _ (by push_cast; linarith)
  rw [div_le_iff (by norm_num : (0:ℚ) < 100)]
  calc (pyRoundInt (100 * x) : ℚ) ≤ ((100 * z : ℤ) : ℚ) := by exact_mod_cast this
    _ = z * 100 := by push_cast; ring

/-- Characterisation of fixed points of two-decimal rounding: exactly the
rationals that are integer multiples of 1/100. -/
theorem pyRound2_eq_self_of_mul (x : ℚ) (k : ℤ) (h : x = (k : ℚ) / 100) :
    pyRound2 x = x := by
  subst h
  unfold pyRound2
  rw [show (100 : ℚ) * ((k : ℚ) / 100) = (k : ℚ) by ring, pyRoundInt_intCast]

/-! ## src/portfolio/aggregator.py : calculate_risk_score -/

/-- Embedding of `calculate_risk_score(volatility, beta, diversification,
overlap_count, total_stocks)` (aggregator.py lines 228-246). -/
def calculate_risk_score (volatility beta diversification overlap_count total_stocks : ℚ) : ℚ :=
  let vol_score := min (volatility * 10) 3
  let beta_score := min (|beta - 1| * 2) 2
  let div_score := max 0 (3 - diversification / 10 * 3)
  let overlap_score := min (if total_stocks > 0 then overlap_count / total_stocks * 2 else 0) 2
  let total_score := vol_score + beta_score + div_score + overlap_score
  pyRound2 (min total_score 10)

/-! ## src/portfolio/calculator.py : calculate_diversification_score -/

/-- Strict upper-triangle entries of a square matrix, row by row
(`np.triu_indices_from(values, k=1)` ordering). -/
def upperTriangle (m : List (List ℚ)) : List ℚ :=
  (List.range m.length).flatMap (fun i =>
    (List.range m.length).filterMap (fun j =>
      if i < j then some ((m.getD i []).getD j 0) else none))

/-- Embedding of `calculate_diversification_score(holdings_count,
correlation_matrix)` (calculator.py lines 223-249).  The matrix is a list of
rows of rationals; the pandas NaN guard cannot fire over `ℚ` and is omitted. -/
def calculate_diversification_score (holdings_count : ℕ) (correlation_matrix : List (List ℚ)) : ℚ :=
  if holdings_count ≤ 1 then 0
  else if correlation_matrix.length < 2 then 5
  else
    let ut := upperTriangle correlation_matrix
    if ut.length = 0 then 5
    else
      let avg_correlation := ut.sum / ut.length
      let holdings_score := min ((holdings_count : ℚ) / 20) 1 * 5
      let correlation_score := (1 - avg_correlation) * 5
      pyRound2 (holdings_score + correlation_score)

/-! ## src/portfolio/risk_analyzer.py : scenarios -/

/-- A what-if scenario: name plus per-symbol percentage shocks
(`{name, stock_changes}`). -/
structure Scenario where
  name : String
  stock_changes : List (String × ℚ)
deriving Repr, DecidableEq

/-- Embedding of `get_default_scenarios()` (risk_analyzer.py lines 202-231). -/
def get_default_scenarios : List Scenario :=
  [ { name := "Market Crash (-20%)", stock_changes := [] },
    { name := "Market Rally (+15%)", stock_changes := [] },
    { name := "Tech Selloff",
      stock_changes := [("TCS", -15), ("INFY", -15), ("WIPRO", -15), ("TECH", -15)] },
    { name := "Banking Rally",
      stock_changes := [("HDFCBANK", 20), ("ICICIBANK", 18), ("AXISBANK", 22), ("SBIN", 25)] } ]

/-- Embedding of `apply_scenario_to_all(scenario, all_symbols, default_change)`
(risk_analyzer.py lines 233-243).  The Python function mutates the scenario
dict in place and returns it; the mutation is modelled by returning the
updated value.  Note the source writes the literal `0`, not `default_change`,
for symbols missing from a non-empty shock map. -/
def apply_scenario_to_all (scenario : Scenario) (all_symbols : List String) (default_change : ℚ) : Scenario :=
  if scenario.stock_changes = [] then
    { scenario with stock_changes := all_symbols.map (fun s => (s, default_change)) }
  else
    { scenario with stock_changes :=
        all_symbols.foldl (fun m s =>
          if (m.lookup s).isSome then m else m ++ [(s, (0 : ℚ))]) scenario.stock_changes }

/-! ## src/portfolio/risk_analyzer.py : VaR and CVaR -/

/-- Insert a value into an ascending-sorted list of rationals. -/
def insertSorted (x : ℚ) : List ℚ → List ℚ
  | [] => [x]
  | y :: ys => if x ≤ y then x :: y :: ys else y :: insertSorted x ys

/-- Ascending sort of a list of rationals (`np.percentile` sorts its input). -/
def sortAsc (l : List ℚ) : List ℚ := l.foldr insertSorted []

/-- Embedding of `np.percentile(a, q)` with the default linear interpolation:
with `a` sorted ascending and `pos = q/100 * (len(a) - 1)`, the result is
`a[⌊pos⌋] + (pos - ⌊pos⌋) * (a[⌊pos⌋ + 1] - a[⌊pos⌋])` (the second term
vanishing when `pos` is the last index). -/
def percentile (xs : List ℚ) (q : ℚ) : ℚ :=
  let s := sortAsc xs
  let pos := q / 100 * ((s.length : ℚ) - 1)
  let i := (Rat.floor pos).toNat
  let lo := s.getD i 0
  lo + (pos - (i : ℚ)) * (s.getD (i + 1) lo - lo)

/-- Mean of a list of rationals (`np.mean`). -/
def listMean (l : List ℚ) : ℚ := l.sum / (l.length : ℚ)

/-- Result record of `calculate_var`: the `{daily_var, annual_var,
confidence_level}` dict; the annualised entry is the derived real
`daily_var * sqrt 252` (see `VarResult.annual_var`). -/
structure VarResult where
  daily_var : ℚ
  confidence_level : ℚ
deriving Repr, DecidableEq

/-- The `annual_var` entry: `var * np.sqrt(252)`. -/
noncomputable def VarResult.annual_var (v : VarResult) : ℝ :=
  (v.daily_var : ℝ) * Real.sqrt 252

/-- Result record of `calculate_cvar`. -/
structure CvarResult where
  daily_cvar : ℚ
  confidence_level : ℚ
deriving Repr, DecidableEq

/-- The `annual_cvar` entry: `cvar * np.sqrt(252)`. -/
noncomputable def CvarResult.annual_cvar (c : CvarResult) : ℝ :=
  (c.daily_cvar : ℝ) * Real.sqrt 252

/-- Embedding of `calculate_var(returns, confidence_level)` (risk_analyzer.py
lines 73-84). -/
def calculate_var (returns : List ℚ) (confidence_level : ℚ) : Option VarResult :=
  if returns.length = 0 then none
  else some { daily_var := percentile returns ((1 - confidence_level) * 100),
              confidence_level := confidence_level }

/-- Embedding of `calculate_cvar(returns, confidence_level)` (risk_analyzer.py
lines 86-98): the mean of the returns at or below the percentile threshold. -/
def calculate_cvar (returns : List ℚ) (confidence_level : ℚ) : Option CvarResult :=
  if returns.length = 0 then none
  else
    let var_threshold := percentile returns ((1 - confidence_level) * 100)
    some { daily_cvar := listMean (returns.filter (fun x => x ≤ var_threshold)),
           confidence_level := confidence_level }

theorem mem_insertSorted {a x : ℚ} {l : List ℚ} :
    a ∈ insertSorted x l ↔ a = x ∨ a ∈ l := by
  induction l with
  | nil => simp [insertSorted]
  | cons y ys ih =>
    unfold insertSorted
    split
    · simp
    · simp [ih]
      tauto

theorem mem_sortAsc {a : ℚ} {l : List ℚ} : a ∈ sortAsc l ↔ a ∈ l := by
  induction l with
  | nil => simp [sortAsc]
  | cons y ys ih =>
    simp only [sortAsc, List.foldr_cons] at *
    rw [mem_insertSorted, ih]
    simp

theorem length_insertSorted (x : ℚ) (l : List ℚ) :
    (insertSorted x l).length = l.length + 1 := by
  induction l with
  | nil => simp [insertSorted]
  | cons y ys ih =>
    unfold insertSorted
    split
    · simp
    · simp [ih]

theorem length_sortAsc (l : List ℚ) : (sortAsc l).length = l.length := by
  induction l with
  | nil => simp [sortAsc]
  | cons y ys ih =>
    simp only [sortAsc, List.foldr_cons] at *
    rw [length_insertSorted, ih]
    simp

theorem exists_min_mem {l : List ℚ} (h : l ≠ []) :
    ∃ m ∈ l, ∀ y ∈ l, m ≤ y := by
  induction l with
  | nil => simp at h
  | cons x xs ih =>
    rcases xs.eq_nil_or_concat with hnil | _
    · subst hnil
      exact ⟨x, by simp⟩
    · by_cases hx : xs = []
      · subst hx
        exact ⟨x, by simp⟩
      · obtain ⟨m, hm, hmin⟩ := ih hx
        by_cases hxm : x ≤ m
        · refine ⟨x, by simp, ?_⟩
          intro y hy
          rcases List.mem_cons.mp hy with rfl | hy
          · exact le_refl _
          · exact le_trans hxm (hmin y hy)
        · refine ⟨m, by simp [hm], ?_⟩
          intro y hy
          rcases List.mem_cons.mp hy with rfl | hy
          · exact le_of_not_le hxm
          · exact hmin y hy

theorem getD_mem_of_lt {l : List ℚ} {i : ℕ} (h : i < l.length) (d : ℚ) :
    l.getD i d ∈ l := by
  rw [List.getD_eq_getElem l d h]
  exact List.getElem_mem h

/-- The linear-interpolation percentile of a non-empty list at
`0 ≤ q ≤ 100` is at least every lower bound of the list. -/
theorem le_percentile {xs : List ℚ} {q m : ℚ} (hne : xs ≠ [])
    (hq0 : 0 ≤ q) (hq1 : q ≤ 100) (hm : ∀ y ∈ xs, m ≤ y) :
    m ≤ percentile xs q := by
  unfold percentile
  set s := sortAsc xs with hs
  have hlen : s.length = xs.length := length_sortAsc xs
  have hn : 1 ≤ s.length := by
    have : xs.length ≠ 0 := fun h0 => hne (List.length_eq_zero.mp h0)
    omega
  set pos := q / 100 * ((s.length : ℚ) - 1) with hpos
  have hpos0 : 0 ≤ pos := by
    apply mul_nonneg (by positivity)
    have : (1 : ℚ) ≤ (s.length : ℚ) := by exact_mod_cast hn
    linarith
  have hposle : pos ≤ (s.length : ℚ) - 1 := by
    have h100 : q / 100 ≤ 1 := by linarith [div_le_one_of_le hq1 (by norm_num : (0:ℚ) ≤ 100)]
    have : (1 : ℚ) ≤ (s.length : ℚ) := by exact_mod_cast hn
    calc q / 100 * ((s.length : ℚ) - 1) ≤ 1 * ((s.length : ℚ) - 1) := by
          apply mul_le_mul_of_nonneg_right h100
          linarith
      _ = (s.length : ℚ) - 1 := by ring
  set i := (Rat.floor pos).toNat with hi
  have hfl0 : 0 ≤ Rat.floor pos := by
    rw [ratFloor_eq_floor]
    exact Int.le_floor.mpr (by exact_mod_cast hpos0)
  have hicast : ((i : ℤ) : ℚ) = ((Rat.floor pos : ℤ) : ℚ) := by
    rw [hi, Int.toNat_of_nonneg hfl0]
  have hile : (i : ℚ) ≤ pos := by
    rw [show ((i : ℕ) : ℚ) = ((i : ℤ) : ℚ) by push_cast; ring, hicast, ratFloor_eq_floor]
    exact Int.floor_le pos
  have higt : pos < (i : ℚ) + 1 := by
    rw [show ((i : ℕ) : ℚ) = ((i : ℤ) : ℚ) by push_cast; ring, hicast, ratFloor_eq_floor]
    exact Int.lt_floor_add_one pos
  have hilt : i < s.length := by
    have : (i : ℚ) ≤ (s.length : ℚ) - 1 := le_trans hile hposle
    have : (i : ℚ) < (s.length : ℚ) := by linarith
    exact_mod_cast this
  have hmemlo : s.getD i 0 ∈ xs := mem_sortAsc.mp (getD_mem_of_lt hilt 0)
  have hlo : m ≤ s.getD i 0 := hm _ hmemlo
  have hhi : m ≤ s.getD (i + 1) (s.getD i 0) := by
    by_cases h2 : i + 1 < s.length
    · exact hm _ (mem_sortAsc.mp (getD_mem_of_lt h2 _))
    · rw [List.getD_eq_default]
      · exact hlo
      · omega
  have hg0 : 0 ≤ pos - (i : ℚ) := by linarith
  have hg1 : pos - (i : ℚ) ≤ 1 := by linarith
  set g := pos - (i : ℚ) with hg
  set a := s.getD i 0 with ha
  set b := s.getD (i + 1) a with hb
  nlinarith [mul_nonneg hg0 (sub_nonneg.mpr hhi), mul_nonneg (sub_nonneg.mpr hg1) (sub_nonneg.mpr hlo)]

theorem sum_le_length_mul {l : List ℚ} {t : ℚ} (h : ∀ x ∈ l, x ≤ t) :
    l.sum ≤ (l.length : ℚ) * t := by
  induction l with
  | nil => simp
  | cons x xs ih =>
    simp only [List.sum_cons, List.length_cons]
    have hx := h x (by simp)
    have hxs := ih (fun y hy => h y (by simp [hy]))
    push_cast
    linarith

theorem listMean_le {l : List ℚ} {t : ℚ} (hne : l ≠ []) (h : ∀ x ∈ l, x ≤ t) :
    listMean l ≤ t := by
  unfold listMean
  have hlen : 0 < (l.length : ℚ) := by
    have : l.length ≠ 0 := fun h0 => hne (List.length_eq_zero.mp h0)
    exact_mod_cast Nat.pos_of_ne_zero this
  rw [div_le_iff₀ hlen]
  calc l.sum ≤ (l.length : ℚ) * t := sum_le_length_mul h
    _ = t * (l.length : ℚ) := by ring

theorem filter_le_percentile_ne_nil {xs : List ℚ} {q : ℚ} (hne : xs ≠ [])
    (hq0 : 0 ≤ q) (hq1 : q ≤ 100) :
    xs.filter (fun x => x ≤ percentile xs q) ≠ [] := by
  obtain ⟨m, hm, hmin⟩ := exists_min_mem hne
  have hle : m ≤ percentile xs q := le_percentile hne hq0 hq1 hmin
  have : m ∈ xs.filter (fun x => x ≤ percentile xs q) := by
    rw [List.mem_filter]
    exact ⟨hm, by simpa using hle⟩
  exact fun hnil => by simp [hnil] at this

/-- C3: for every non-empty daily-return series and every confidence level
`c ∈ (0,1)`, the daily CVaR computed by `calculate_cvar` is at most the daily
VaR computed by `calculate_var` at the same confidence (the mean of the
returns at or below the percentile threshold is at most the threshold), and
the same ordering holds for the annualised values obtained by multiplying
both by `sqrt 252`. -/
theorem cvar_le_var (returns : List ℚ) (c : ℚ) (hne : returns ≠ [])
    (hc0 : 0 < c) (hc1 : c < 1) :
    ∃ v cv, calculate_var returns c = some v ∧ calculate_cvar returns c = some cv ∧
      cv.daily_cvar ≤ v.daily_var ∧ cv.annual_cvar ≤ v.annual_var := by
  have hlen : returns.length ≠ 0 := fun h0 => hne (List.length_eq_zero.mp h0)
  have hq0 : (0 : ℚ) ≤ (1 - c) * 100 := by nlinarith
  have hq1 : (1 - c) * 100 ≤ 100 := by nlinarith
  refine ⟨⟨percentile returns ((1 - c) * 100), c⟩,
    ⟨listMean (returns.filter (fun x => x ≤ percentile returns ((1 - c) * 100))), c⟩,
    ?_, ?_, ?_, ?_⟩
  · simp [calculate_var, hlen]
  · simp [calculate_cvar, hlen]
  · have hfil : returns.filter (fun x => x ≤ percentile returns ((1 - c) * 100)) ≠ [] :=
      filter_le_percentile_ne_nil hne hq0 hq1
    apply listMean_le hfil
    intro x hx
    have := (List.mem_filter.mp hx).2
    simpa using this
  · show (listMean (returns.filter (fun x => x ≤ percentile returns ((1 - c) * 100))) : ℝ) *
      Real.sqrt 252 ≤ (percentile returns ((1 - c) * 100) : ℝ) * Real.sqrt 252
    apply mul_le_mul_of_nonneg_right _ (Real.sqrt_nonneg 252)
    have hfil : returns.filter (fun x => x ≤ percentile returns ((1 - c) * 100)) ≠ [] :=
      filter_le_percentile_ne_nil hne hq0 hq1
    have : listMean (returns.filter (fun x => x ≤ percentile returns ((1 - c) * 100))) ≤
        percentile returns ((1 - c) * 100) := by
      apply listMean_le hfil
      intro x hx
      have := (List.mem_filter.mp hx).2
      simpa using this
    exact_mod_cast this

/-- Witness for C3 at the concrete return series `[1/100, -1/50, 3/100]` and
confidence level `0.95`. -/
theorem cvar_le_var_witness :
    ∃ v cv, calculate_var [1/100, -1/50, 3/100] (19/20) = some v ∧
      calculate_cvar [1/100, -1/50, 3/100] (19/20) = some cv ∧
      cv.daily_cvar ≤ v.daily_var ∧ cv.annual_cvar ≤ v.annual_var :=
  cvar_le_var [1/100, -1/50, 3/100] (19/20) (by simp) (by norm_num) (by norm_num)

/-- C9: for every confidence level `c ∈ (0,1)`, `calculate_var` and
`calculate_cvar` return `none` exactly when the return series is empty, and
for a non-empty series the set of returns at or below the percentile
threshold used by `calculate_cvar` contains the minimum return (the
percentile is at least the minimum), hence the mean is taken over a
non-empty list and the daily CVaR is never the mean of an empty selection. -/
theorem var_cvar_none_iff_empty (returns : List ℚ) (c : ℚ)
    (hc0 : 0 < c) (hc1 : c < 1) :
    (calculate_var returns c = none ↔ returns = []) ∧
    (calculate_cvar returns c = none ↔ returns = []) ∧
    (returns ≠ [] →
      (∃ m ∈ returns, (∀ y ∈ returns, m ≤ y) ∧ m ≤ percentile returns ((1 - c) * 100)) ∧
      returns.filter (fun x => x ≤ percentile returns ((1 - c) * 100)) ≠ []) := by
  have hq0 : (0 : ℚ) ≤ (1 - c) * 100 := by nlinarith
  have hq1 : (1 - c) * 100 ≤ 100 := by nlinarith
  refine ⟨?_, ?_, ?_⟩
  · constructor
    · intro h
      by_contra hne
      have hlen : returns.length ≠ 0 := fun h0 => hne (List.length_eq_zero.mp h0)
      simp [calculate_var, hlen] at h
    · intro h
      subst h
      simp [calculate_var]
  · constructor
    · intro h
      by_contra hne
      have hlen : returns.length ≠ 0 := fun h0 => hne (List.length_eq_zero.mp h0)
      simp [calculate_cvar, hlen] at h
    · intro h
      subst h
      simp [calculate_cvar]
  · intro hne
    obtain ⟨m, hm, hmin⟩ := exists_min_mem hne
    exact ⟨⟨m, hm, hmin, le_percentile hne hq0 hq1 hmin⟩,
      filter_le_percentile_ne_nil hne hq0 hq1⟩

/-- Witness for C9 at the concrete return series `[2, 5]` and confidence
level `0.95`. -/
theorem var_cvar_none_iff_empty_witness :
    (calculate_var [2, 5] (19/20) = none ↔ ([2, 5] : List ℚ) = []) ∧
    (calculate_cvar [2, 5] (19/20) = none ↔ ([2, 5] : List ℚ) = []) ∧
    (([2, 5] : List ℚ) ≠ [] →
      (∃ m ∈ ([2, 5] : List ℚ), (∀ y ∈ ([2, 5] : List ℚ), m ≤ y) ∧
        m ≤ percentile [2, 5] ((1 - 19/20) * 100)) ∧
      ([2, 5] : List ℚ).filter (fun x => x ≤ percentile [2, 5] ((1 - 19/20) * 100)) ≠ []) :=
  var_cvar_none_iff_empty [2, 5] (19/20) (by norm_num) (by norm_num)

/-- The percentage shock a symbol receives inside `simulate_scenarios`:
`scenario.stock_changes.get(symbol, 0)` (risk_analyzer.py line 184). -/
def scenarioShock (sc : Scenario) (symbol : String) : ℚ :=
  (sc.stock_changes.lookup symbol).getD 0

/-- C4: for volatility ≥ 0, any beta, diversification ≥ 0 and
`0 ≤ overlap_count ≤ total_stocks`, `calculate_risk_score` returns a value in
`[0, 10]`: each component is individually bounded (volatility 0-3, beta 0-2,
diversification 0-3, overlap 0-2) so the total never goes below 0 even though
only the upper bound is applied explicitly. -/
theorem calculate_risk_score_bounds (volatility beta diversification overlap_count total_stocks : ℚ)
    (hvol : 0 ≤ volatility) (hdiv : 0 ≤ diversification)
    (hoc : 0 ≤ overlap_count) (hocts : overlap_count ≤ total_stocks) :
    0 ≤ calculate_risk_score volatility beta diversification overlap_count total_stocks ∧
    calculate_risk_score volatility beta diversification overlap_count total_stocks ≤ 10 := by
  have hvs0 : (0:ℚ) ≤ min (volatility * 10) 3 := le_min (by linarith) (by norm_num)
  have hvs3 : min (volatility * 10) 3 ≤ 3 := min_le_right _ _
  have hbs0 : (0:ℚ) ≤ min (|beta - 1| * 2) 2 :=
    le_min (by positivity) (by norm_num)
  have hbs2 : min (|beta - 1| * 2) 2 ≤ 2 := min_le_right _ _
  have hds0 : (0:ℚ) ≤ max 0 (3 - diversification / 10 * 3) := le_max_left _ _
  have hds3 : max 0 (3 - diversification / 10 * 3) ≤ 3 := by
    apply max_le (by norm_num)
    have : 0 ≤ diversification / 10 * 3 := by positivity
    linarith
  have hos0 : (0:ℚ) ≤ min (if total_stocks > 0 then overlap_count / total_stocks * 2 else 0) 2 := by
    apply le_min _ (by norm_num)
    split
    · next h => positivity
    · exact le_refl 0
  have hos2 : min (if total_stocks > 0 then overlap_count / total_stocks * 2 else 0) 2 ≤ 2 :=
    min_le_right _ _
  simp only [calculate_risk_score]
  constructor
  · apply pyRound2_nonneg
    apply le_min _ (by norm_num)
    linarith
  · have h10 := pyRound2_le_of_le_int
      (min (min (volatility * 10) 3 + min (|beta - 1| * 2) 2 +
        max 0 (3 - diversification / 10 * 3) +
        min (if total_stocks > 0 then overlap_count / total_stocks * 2 else 0) 2) 10) 10
      (by exact_mod_cast min_le_right _ 10)
    exact_mod_cast h10

/-- Witness for C4 at volatility 0.2, beta 1.2, diversification 5,
overlap_count 1, total_stocks 4. -/
theorem calculate_risk_score_bounds_witness :
    0 ≤ calculate_risk_score (1/5) (6/5) 5 1 4 ∧
    calculate_risk_score (1/5) (6/5) 5 1 4 ≤ 10 :=
  calculate_risk_score_bounds (1/5) (6/5) 5 1 4
    (by norm_num) (by norm_num) (by norm_num) (by norm_num)

/-- C5 failing input: at `holdings_count = 2` with the valid correlation
matrix `[[1,-1],[-1,1]]` (entries in `[-1,1]`, ones on the diagonal) the
score is `0.5 + 10 = 10.5`, outside `[0,10]`: the code contradicts its own
docstring, which promises a 0-10 score. -/
theorem diversification_score_exceeds_ten :
    calculate_diversification_score 2 [[1, -1], [-1, 1]] = 21/2 ∧
    ¬ calculate_diversification_score 2 [[1, -1], [-1, 1]] ≤ 10 := by
  have hut : upperTriangle [[1, -1], [-1, 1]] = [-1] := rfl
  have hfix : pyRound2 (21/2) = 21/2 := pyRound2_eq_self_of_mul _ 1050 (by norm_num)
  have h : calculate_diversification_score 2 [[1, -1], [-1, 1]] = 21/2 := by
    norm_num [calculate_diversification_score, hut, hfix]
  exact ⟨h, by rw [h]; norm_num⟩

/-- C6 failing input: a scenario naming only TCS, applied to the held symbols
TCS and HDFCBANK with caller-supplied default shock 5, gives the unnamed
symbol HDFCBANK the shock 0, not 5: the else-branch of
`apply_scenario_to_all` writes the literal 0 where its own comment says the
default is applied. -/
theorem apply_scenario_default_shock_is_zero :
    scenarioShock
      (apply_scenario_to_all
        { name := "Tech Selloff", stock_changes := [("TCS", -15)] }
        ["TCS", "HDFCBANK"] 5)
      "HDFCBANK" = 0 ∧ (0 : ℚ) ≠ 5 := by
  constructor
  · simp [apply_scenario_to_all, scenarioShock, List.lookup]
  · norm_num

theorem lookup_map_const_isSome {syms : List String} {y : String} {d : ℚ}
    (hy : y ∈ syms) : ((syms.map (fun x => (x, d))).lookup y).isSome := by
  induction syms with
  | nil => simp at hy
  | cons x xs ih =>
    by_cases hxy : y = x
    · subst hxy
      simp [List.lookup]
    · have hmem : y ∈ xs := by
        rcases List.mem_cons.mp hy with rfl | hmem
        · exact absurd rfl hxy
        · exact hmem
      have hbeq : (y == x) = false := by simpa using hxy
      simp [List.lookup, hbeq, ih hmem]

theorem foldl_fill_missing_eq_self (syms : List String) (m : List (String × ℚ))
    (h : ∀ x ∈ syms, (m.lookup x).isSome) :
    syms.foldl (fun m s => if (m.lookup s).isSome then m else m ++ [(s, (0 : ℚ))]) m = m := by
  induction syms with
  | nil => simp
  | cons x xs ih =>
    rw [List.foldl_cons]
    have hx : (m.lookup x).isSome := h x (by simp)
    rw [if_pos hx]
    exact ih (fun y hy => h y (by simp [hy]))

/-- C10: `apply_scenario_to_all` updates the scenario it is given (the Python
function mutates the dict in place and returns the same object; the mutation
is modelled by state passing): starting from an empty shock map over a
non-empty symbol list, the map is filled with the default for every symbol,
becomes non-empty, and a second application with a different default `e`
takes the non-empty branch and leaves every shock at `d` instead of
re-applying `e` uniformly. -/
theorem apply_scenario_to_all_persists (s : Scenario) (syms : List String) (d e : ℚ)
    (hempty : s.stock_changes = []) (hne : syms ≠ []) :
    (apply_scenario_to_all s syms d).stock_changes = syms.map (fun x => (x, d)) ∧
    (apply_scenario_to_all s syms d).stock_changes ≠ [] ∧
    apply_scenario_to_all (apply_scenario_to_all s syms d) syms e =
      apply_scenario_to_all s syms d := by
  have h1 : (apply_scenario_to_all s syms d).stock_changes = syms.map (fun x => (x, d)) := by
    simp [apply_scenario_to_all, hempty]
  have h2 : (apply_scenario_to_all s syms d).stock_changes ≠ [] := by
    rw [h1]
    simp [hne]
  refine ⟨h1, h2, ?_⟩
  set A := apply_scenario_to_all s syms d with hA
  rw [apply_scenario_to_all, if_neg h2, h1]
  have hfill := foldl_fill_missing_eq_self syms (syms.map (fun x => (x, d)))
    (fun x hx => lookup_map_const_isSome hx)
  rw [hfill, ← h1]

/-- Witness for C10: the first default scenario of the library (empty shock
map) over one held symbol, with defaults -20 then +15. -/
theorem apply_scenario_to_all_persists_witness :
    (apply_scenario_to_all (get_default_scenarios.getD 0 { name := "", stock_changes := [] })
        ["TCS"] (-20)).stock_changes = (["TCS"].map (fun x => (x, (-20 : ℚ)))) ∧
    (apply_scenario_to_all (get_default_scenarios.getD 0 { name := "", stock_changes := [] })
        ["TCS"] (-20)).stock_changes ≠ [] ∧
    apply_scenario_to_all
        (apply_scenario_to_all (get_default_scenarios.getD 0 { name := "", stock_changes := [] })
          ["TCS"] (-20)) ["TCS"] 15 =
      apply_scenario_to_all (get_default_scenarios.getD 0 { name := "", stock_changes := [] })
        ["TCS"] (-20) :=
  apply_scenario_to_all_persists _ ["TCS"] (-20) 15 (by simp [get_default_scenarios]) (by simp)

/-! ## src/portfolio/aggregator.py : process_portfolio_data

The market-data collaborators (`get_current_price`, historical returns,
`calculate_stock_metrics`, `calculate_portfolio_metrics`,
`calculate_correlation_matrix`) perform I/O in `src/database/data_loader.py`;
they are modelled as the environment `MarketEnv`.  The value / ownership /
weight data flow of `process_portfolio_data` is embedded exactly. -/

/-- One stock lot of the input JSON (after `float()` coercion of `quantity`
and of the optional `cost_basis`, which defaults to 0). -/
structure Stock where
  symbol : String
  quantity : ℚ
  cost_basis : ℚ
deriving Repr, DecidableEq

/-- One member of the input JSON. -/
structure Investor where
  id : String
  name : String
  stocks : List Stock
deriving Repr, DecidableEq

/-- The portfolio input JSON. -/
structure PortfolioInput where
  email : String
  investor : List Investor
deriving Repr, DecidableEq

/-- A `{volatility, expected_return, sharpe_ratio, beta}` metrics bundle as
produced by `calculate_stock_metrics` / `calculate_portfolio_metrics`. -/
structure StockMetrics where
  volatility : ℚ
  expected_return : ℚ
  sharpe_ratio : ℚ
  beta : ℚ
deriving Repr, DecidableEq

/-- The market-data environment: `price` models `get_current_price` (`none`
when no source has the symbol), `stockMetrics` models
`calculate_stock_metrics`, `portfolioMetrics` models
`calculate_portfolio_metrics` applied to the ambient historical returns, and
`corr` models `calculate_correlation_matrix`. -/
structure MarketEnv where
  price : String → Option ℚ
  stockMetrics : String → StockMetrics
  portfolioMetrics : List (String × ℚ × ℚ) → StockMetrics
  corr : List String → List (List ℚ)

/-- `current_prices.get(symbol, 0)`: a missing price and a stored price both
come out of the lookup with default 0 (a zero price is not stored because of
the `if price:` truthiness test, but the defaulted lookup yields 0 either
way). -/
def curPrice (env : MarketEnv) (symbol : String) : ℚ := (env.price symbol).getD 0

/-- `value = quantity * current_price` (aggregator.py line 83). -/
def stockValue (env : MarketEnv) (st : Stock) : ℚ := st.quantity * curPrice env st.symbol

/-- `total_cost = quantity * cost_basis if cost_basis > 0 else 0` (line 84). -/
def stockTotalCost (st : Stock) : ℚ :=
  if st.cost_basis > 0 then st.quantity * st.cost_basis else 0

/-- `gain = value - total_cost if total_cost > 0 else 0` (line 85). -/
def stockGain (env : MarketEnv) (st : Stock) : ℚ :=
  if stockTotalCost st > 0 then stockValue env st - stockTotalCost st else 0

/-- One member-holding record of the output (aggregator.py lines 103-117). -/
structure Holding where
  symbol : String
  quantity : ℚ
  current_price : ℚ
  value : ℚ
  cost_basis : ℚ
  total_cost : ℚ
  gain : ℚ
  gain_pct : ℚ
  weight : ℚ
  volatility : ℚ
  expected_return : ℚ
  sharpe_ratio : ℚ
  beta : ℚ
deriving Repr, DecidableEq

/-- Build the holding dict for one stock; the weight is set to 0 and filled
in by a second pass once the member total is known (lines 103-118). -/
def mkHolding (env : MarketEnv) (st : Stock) : Holding :=
  { symbol := st.symbol
    quantity := st.quantity
    current_price := pyRound2 (curPrice env st.symbol)
    value := pyRound2 (stockValue env st)
    cost_basis := st.cost_basis
    total_cost := pyRound2 (stockTotalCost st)
    gain := pyRound2 (stockGain env st)
    gain_pct := pyRound2 (if stockTotalCost st > 0 then stockGain env st / stockTotalCost st * 100 else 0)
    weight := 0
    volatility := (env.stockMetrics st.symbol).volatility
    expected_return := (env.stockMetrics st.symbol).expected_return
    sharpe_ratio := (env.stockMetrics st.symbol).sharpe_ratio
    beta := (env.stockMetrics st.symbol).beta }

/-- `member_total_value`: the sum of the unrounded values (line 87). -/
def memberTotalValue (env : MarketEnv) (stocks : List Stock) : ℚ :=
  (stocks.map (stockValue env)).sum

/-- `member_total_cost` (line 88). -/
def memberTotalCost (stocks : List Stock) : ℚ :=
  (stocks.map stockTotalCost).sum

/-- Second pass over the member holdings (lines 120-122): the weight becomes
`round((value / member_total_value * 100) if member_total_value > 0 else 0, 2)`
where the value field of the holding is the rounded per-lot value while the
member total sums unrounded values. -/
def setWeight (memberTotal : ℚ) (h : Holding) : Holding :=
  { h with weight := pyRound2 (if memberTotal > 0 then h.value / memberTotal * 100 else 0) }

/-- The list of holding records of one member, weights filled in. -/
def processMemberHoldings (env : MarketEnv) (stocks : List Stock) : List Holding :=
  (stocks.map (mkHolding env)).map (setWeight (memberTotalValue env stocks))

/-- Family-wide per-symbol accumulator (aggregator.py lines 91-101):
quantity, unrounded value, cost, and the list of owning member names, with
one append per processed lot. -/
structure FamilyHoldingAcc where
  quantity : ℚ
  value : ℚ
  cost : ℚ
  owners : List String
deriving Repr, DecidableEq

/-- Update of the `family_holdings` dict for one lot: create the entry at the
end of the dict if the symbol is new (with zero totals and empty owners) and
then add the quantity/value/cost and append the member name (lines 90-101). -/
def famUpd (acc : List (String × FamilyHoldingAcc)) (symbol name : String)
    (q v c : ℚ) : List (String × FamilyHoldingAcc) :=
  match acc with
  | [] => [(symbol, { quantity := q, value := v, cost := c, owners := [name] })]
  | (s, d) :: rest =>
    if s = symbol then
      (s, { quantity := d.quantity + q, value := d.value + v, cost := d.cost + c,
            owners := d.owners ++ [name] }) :: rest
    else (s, d) :: famUpd rest symbol name q v c

/-- Process one lot of one member into the family accumulator. -/
def famStepStock (env : MarketEnv) (name : String)
    (acc : List (String × FamilyHoldingAcc)) (st : Stock) : List (String × FamilyHoldingAcc) :=
  famUpd acc st.symbol name st.quantity (stockValue env st) (stockTotalCost st)

/-- Process all lots of one member into the family accumulator. -/
def famStepInvestor (env : MarketEnv) (acc : List (String × FamilyHoldingAcc))
    (inv : Investor) : List (String × FamilyHoldingAcc) :=
  inv.stocks.foldl (famStepStock env inv.name) acc

/-- The `family_holdings` accumulator after all members are processed. -/
def familyHoldingsAcc (env : MarketEnv) (investors : List Investor) :
    List (String × FamilyHoldingAcc) :=
  investors.foldl (famStepInvestor env) []

/-- `family_total_value`: sum of the member totals (line 157). -/
def familyTotalValue (env : MarketEnv) (investors : List Investor) : ℚ :=
  (investors.map (fun inv => memberTotalValue env inv.stocks)).sum

/-- `family_total_cost` (line 158). -/
def familyTotalCost (investors : List Investor) : ℚ :=
  (investors.map (fun inv => memberTotalCost inv.stocks)).sum

/-- `overlapping_stocks = {symbol: owners for ... if len(owners) > 1}`
(lines 160-165). -/
def overlappingStocks (acc : List (String × FamilyHoldingAcc)) :
    List (String × List String) :=
  (acc.filter (fun p => 1 < p.2.owners.length)).map (fun p => (p.1, p.2.owners))

/-- One entry of the `family_holdings` section of the output (lines 215-223):
rounded value, rounded percentage weight against the family total, owners. -/
structure FamilyHoldingOut where
  quantity : ℚ
  value : ℚ
  weight : ℚ
  owners : List String
deriving Repr, DecidableEq

/-- The `family_holdings` section of the output. -/
def familyHoldingsOut (famTotal : ℚ) (acc : List (String × FamilyHoldingAcc)) :
    List (String × FamilyHoldingOut) :=
  acc.map (fun p => (p.1,
    { quantity := p.2.quantity
      value := pyRound2 p.2.value
      weight := pyRound2 (if famTotal > 0 then p.2.value / famTotal * 100 else 0)
      owners := p.2.owners }))

/-- One member section of the output (aggregator.py lines 138-154). -/
structure MemberPortfolio where
  id : String
  name : String
  value : ℚ
  cost : ℚ
  gain : ℚ
  gain_pct : ℚ
  holdings_count : ℕ
  holdings : List Holding
  metrics : StockMetrics
  diversification_score : ℚ
deriving Repr, DecidableEq

/-- Process one member (aggregator.py lines 68-156). -/
def processMember (env : MarketEnv) (inv : Investor) : MemberPortfolio :=
  { id := inv.id
    name := inv.name
    value := pyRound2 (memberTotalValue env inv.stocks)
    cost := pyRound2 (memberTotalCost inv.stocks)
    gain := pyRound2 (memberTotalValue env inv.stocks - memberTotalCost inv.stocks)
    gain_pct := pyRound2 (if memberTotalCost inv.stocks > 0 then
      (memberTotalValue env inv.stocks - memberTotalCost inv.stocks) / memberTotalCost inv.stocks * 100 else 0)
    holdings_count := (processMemberHoldings env inv.stocks).length
    holdings := processMemberHoldings env inv.stocks
    metrics := env.portfolioMetrics
      ((processMemberHoldings env inv.stocks).map (fun h => (h.symbol, h.weight / 100, h.value)))
    diversification_score := calculate_diversification_score
      (processMemberHoldings env inv.stocks).length
      (env.corr ((processMemberHoldings env inv.stocks).map (fun h => h.symbol))) }

/-- The `family` section of the output (aggregator.py lines 194-212). -/
structure FamilySummary where
  email : String
  total_value : ℚ
  total_cost : ℚ
  total_gain : ℚ
  total_gain_pct : ℚ
  member_count : ℕ
  total_stocks : ℕ
  unique_stocks : ℕ
  overlapping_stocks : ℕ
  risk_score : ℚ
  metrics : StockMetrics
  diversification_score : ℚ
deriving Repr, DecidableEq

/-- The full output of `process_portfolio_data` (aggregator.py lines
193-224). -/
structure FamilyPortfolio where
  family : FamilySummary
  members : List MemberPortfolio
  overlaps : List (String × List String)
  family_holdings : List (String × FamilyHoldingOut)
deriving Repr, DecidableEq

/-- Embedding of `process_portfolio_data(json_input)` (aggregator.py lines
11-226), parameterised by the market-data environment. -/
def process_portfolio_data (env : MarketEnv) (input : PortfolioInput) : FamilyPortfolio :=
  let acc := familyHoldingsAcc env input.investor
  let famT := familyTotalValue env input.investor
  let famC := familyTotalCost input.investor
  let ovl := overlappingStocks acc
  let famSymbols := acc.map (fun p => p.1)
  let famMetrics := env.portfolioMetrics
    (acc.map (fun p => (p.1, if famT > 0 then p.2.value / famT else 0, p.2.value)))
  let famDiv := calculate_diversification_score famSymbols.length (env.corr famSymbols)
  { family :=
    { email := input.email
      total_value := pyRound2 famT
      total_cost := pyRound2 famC
      total_gain := pyRound2 (famT - famC)
      total_gain_pct := pyRound2 (if famC > 0 then (famT - famC) / famC * 100 else 0)
      member_count := input.investor.length
      total_stocks := famSymbols.length
      unique_stocks := famSymbols.length
      overlapping_stocks := ovl.length
      risk_score := calculate_risk_score famMetrics.volatility famMetrics.beta famDiv
        (ovl.length : ℚ) (famSymbols.length : ℚ)
      metrics := famMetrics
      diversification_score := famDiv }
    members := input.investor.map (processMember env)
    overlaps := ovl
    family_holdings := familyHoldingsOut famT acc }

/-- One row of `simulate_scenarios` (risk_analyzer.py lines 192-198). -/
structure ScenarioResult where
  scenario : String
  current_value : ℚ
  scenario_value : ℚ
  value_change : ℚ
  pct_change : ℚ
deriving Repr, DecidableEq

/-- Embedding of `simulate_scenarios(portfolio_data, scenarios)`
(risk_analyzer.py lines 170-200). -/
def simulate_scenarios (portfolio : FamilyPortfolio) (scenarios : List Scenario) :
    List ScenarioResult :=
  scenarios.map (fun sc =>
    let scenario_value :=
      (portfolio.family_holdings.map (fun p => p.2.value * (1 + scenarioShock sc p.1 / 100))).sum
    let current_value := portfolio.family.total_value
    let value_change := scenario_value - current_value
    { scenario := sc.name
      current_value := current_value
      scenario_value := scenario_value
      value_change := value_change
      pct_change := if current_value > 0 then value_change / current_value * 100 else 0 })

/-! ## src/utils/validators.py : validate_portfolio_json -/

/-- Per-stock checks of `validate_portfolio_json` (validators.py lines
79-107). -/
def validStock (st : Stock) : Prop :=
  st.symbol ≠ "" ∧ 0 < st.quantity ∧ 0 ≤ st.cost_basis

/-- Per-investor checks (validators.py lines 47-77). -/
def validInvestor (inv : Investor) : Prop :=
  inv.id ≠ "" ∧ inv.stocks ≠ [] ∧ inv.stocks.length ≤ 50 ∧ ∀ st ∈ inv.stocks, validStock st

/-- Structural checks of `validate_portfolio_json` (validators.py lines
9-109); the email-format regex is not modelled (it does not influence
processing). -/
def validPortfolioInput (p : PortfolioInput) : Prop :=
  p.investor ≠ [] ∧ p.investor.length ≤ 20 ∧
  (p.investor.map (fun inv => inv.id)).Nodup ∧ ∀ inv ∈ p.investor, validInvestor inv

/-! ## Family-accumulator lemmas -/

/-- The owner list recorded for a symbol in the family accumulator
(empty if the symbol has no entry). -/
def ownersOf (acc : List (String × FamilyHoldingAcc)) (symbol : String) : List String :=
  ((acc.lookup symbol).map (fun d => d.owners)).getD []

/-- The keys of the family accumulator, in insertion order. -/
def keysOf (acc : List (String × FamilyHoldingAcc)) : List String :=
  acc.map (fun p => p.1)

/-- How many lots of a member name a given symbol. -/
def countSym (stocks : List Stock) (s : String) : ℕ :=
  stocks.countP (fun st => st.symbol == s)

/-- How many distinct members of the input hold at least one lot of a
symbol. -/
def holdersCount (p : PortfolioInput) (s : String) : ℕ :=
  (p.investor.filter (fun inv => decide (0 < countSym inv.stocks s))).length

theorem ownersOf_nil (s : String) : ownersOf [] s = [] := rfl

theorem ownersOf_famUpd (acc : List (String × FamilyHoldingAcc))
    (sym name : String) (q v c : ℚ) (s' : String) :
    ownersOf (famUpd acc sym name q v c) s' =
      if s' = sym then ownersOf acc s' ++ [name] else ownersOf acc s' := by
  induction acc with
  | nil =>
    by_cases h : s' = sym
    · subst h
      simp [famUpd, ownersOf, List.lookup]
    · have hbeq : (s' == sym) = false := by simpa using h
      simp [famUpd, ownersOf, List.lookup, hbeq, h]
  | cons p rest ih =>
    obtain ⟨s, d⟩ := p
    by_cases hs : s = sym
    · subst hs
      by_cases h : s' = s
      · subst h
        simp [famUpd, ownersOf, List.lookup]
      · have hbeq : (s' == s) = false := by simpa using h
        simp [famUpd, ownersOf, List.lookup, hbeq, h]
    · by_cases h : s' = s
      · subst h
        have hss : (s' == s') = true := by simp
        rw [if_neg (fun hcon : s' = sym => hs hcon)]
        simp [famUpd, if_neg hs, ownersOf, List.lookup, hss]
      · have hbeq : (s' == s) = false := by simpa using h
        have ihe := ih
        simp only [ownersOf, List.lookup] at ihe ⊢
        simp only [famUpd, if_neg hs, List.lookup, hbeq]
        exact ihe

theorem keysOf_famUpd (acc : List (String × FamilyHoldingAcc))
    (sym name : String) (q v c : ℚ) :
    keysOf (famUpd acc sym name q v c) =
      if sym ∈ keysOf acc then keysOf acc else keysOf acc ++ [sym] := by
  induction acc with
  | nil => simp [famUpd, keysOf]
  | cons p rest ih =>
    obtain ⟨s, d⟩ := p
    by_cases hs : s = sym
    · subst hs
      simp [famUpd, keysOf]
    · have hmem : sym ∈ keysOf ((s, d) :: rest) ↔ sym ∈ keysOf rest := by
        simp only [keysOf, List.map_cons, List.mem_cons]
        constructor
        · rintro (hcon | hmem)
          · exact absurd hcon.symm hs
          · exact hmem
        · exact Or.inr
      simp only [famUpd, if_neg hs]
      by_cases h : sym ∈ keysOf rest
      · rw [if_pos (hmem.mpr h)]
        simp only [keysOf, List.map_cons] at ih ⊢
        rw [ih]
        simp [keysOf] at h
        simp [keysOf, h]
      · rw [if_neg (fun hcon => h (hmem.mp hcon))]
        simp only [keysOf, List.map_cons] at ih ⊢
        rw [ih]
        simp [keysOf] at h
        simp [keysOf, h]

theorem keys_nodup_famUpd (acc : List (String × FamilyHoldingAcc))
    (sym name : String) (q v c : ℚ) (h : (keysOf acc).Nodup) :
    (keysOf (famUpd acc sym name q v c)).Nodup := by
  rw [keysOf_famUpd]
  split
  · exact h
  · next hnot =>
    rw [List.nodup_append]
    exact ⟨h, List.nodup_singleton sym, by simpa using hnot⟩

theorem lookup_eq_some_of_mem {acc : List (String × FamilyHoldingAcc)}
    (hnd : (keysOf acc).Nodup) {s : String} {d : FamilyHoldingAcc}
    (h : (s, d) ∈ acc) : acc.lookup s = some d := by
  induction acc with
  | nil => simp at h
  | cons p rest ih =>
    obtain ⟨k, v⟩ := p
    have hnd2 : k ∉ keysOf rest ∧ (keysOf rest).Nodup := by
      simp only [keysOf, List.map_cons] at hnd
      exact List.nodup_cons.mp hnd
    rcases List.mem_cons.mp h with heq | hmem
    · cases heq
      simp [List.lookup]
    · have hk : s ≠ k := by
        intro hcon
        subst hcon
        apply hnd2.1
        simp only [keysOf, List.mem_map]
        exact ⟨(s, d), hmem, rfl⟩
      have hbeq : (s == k) = false := by simpa using hk
      simp [List.lookup, hbeq, ih hnd2.2 hmem]

theorem mem_of_lookup_eq_some {acc : List (String × FamilyHoldingAcc)}
    {s : String} {d : FamilyHoldingAcc} (h : acc.lookup s = some d) : (s, d) ∈ acc := by
  induction acc with
  | nil => simp [List.lookup] at h
  | cons p rest ih =>
    obtain ⟨k, v⟩ := p
    by_cases hk : s = k
    · subst hk
      simp [List.lookup] at h
      simp [h]
    · have hbeq : (s == k) = false := by simpa using hk
      simp only [List.lookup, hbeq] at h
      exact List.mem_cons_of_mem _ (ih h)

theorem lookup_isSome_iff_mem_keys {acc : List (String × FamilyHoldingAcc)} {s : String} :
    (acc.lookup s).isSome ↔ s ∈ keysOf acc := by
  induction acc with
  | nil => simp [List.lookup, keysOf]
  | cons p rest ih =>
    obtain ⟨k, v⟩ := p
    by_cases hk : s = k
    · subst hk
      simp [List.lookup, keysOf]
    · have hbeq : (s == k) = false := by simpa using hk
      simp only [List.lookup, hbeq, keysOf, List.map_cons, List.mem_cons] at ih ⊢
      rw [ih]
      simp [hk]

theorem foldl_preserve {α β : Type} (P : β → Prop) (f : β → α → β) (l : List α)
    (b : β) (hb : P b) (hf : ∀ b a, P b → P (f b a)) : P (l.foldl f b) := by
  induction l generalizing b with
  | nil => exact hb
  | cons x xs ih => exact ih (f b x) (hf b x hb)

theorem ownersOf_foldl_stocks (env : MarketEnv) (name : String)
    (stocks : List Stock) (acc : List (String × FamilyHoldingAcc)) (s : String) :
    ownersOf (stocks.foldl (famStepStock env name) acc) s =
      ownersOf acc s ++ List.replicate (countSym stocks s) name := by
  induction stocks generalizing acc with
  | nil => simp [countSym]
  | cons st rest ih =>
    rw [List.foldl_cons, ih]
    show ownersOf (famUpd acc st.symbol name _ _ _) s ++ _ = _
    rw [ownersOf_famUpd]
    by_cases h : s = st.symbol
    · have hbeq : (st.symbol == s) = true := by simp [h]
      rw [if_pos h]
      have hcount : countSym (st :: rest) s = countSym rest s + 1 := by
        simp [countSym, List.countP_cons, hbeq]
      rw [hcount, List.append_assoc]
      simp [List.replicate_succ]
    · have hbeq : (st.symbol == s) = false := by
        simpa using fun hcon => h hcon.symm
      rw [if_neg h]
      have hcount : countSym (st :: rest) s = countSym rest s := by
        simp [countSym, List.countP_cons, hbeq]
      rw [hcount]

theorem ownersOf_foldl_investors (env : MarketEnv) (invs : List Investor)
    (acc : List (String × FamilyHoldingAcc)) (s : String) :
    ownersOf (invs.foldl (famStepInvestor env) acc) s =
      ownersOf acc s ++ invs.flatMap (fun inv => List.replicate (countSym inv.stocks s) inv.name) := by
  induction invs generalizing acc with
  | nil => simp
  | cons inv rest ih =>
    rw [List.foldl_cons, ih]
    show ownersOf (inv.stocks.foldl (famStepStock env inv.name) acc) s ++ _ = _
    rw [ownersOf_foldl_stocks]
    simp [List.append_assoc]

theorem ownersOf_familyHoldingsAcc (env : MarketEnv) (invs : List Investor) (s : String) :
    ownersOf (familyHoldingsAcc env invs) s =
      invs.flatMap (fun inv => List.replicate (countSym inv.stocks s) inv.name) := by
  unfold familyHoldingsAcc
  rw [ownersOf_foldl_investors]
  simp [ownersOf_nil]

theorem keys_nodup_familyHoldingsAcc (env : MarketEnv) (invs : List Investor) :
    (keysOf (familyHoldingsAcc env invs)).Nodup := by
  unfold familyHoldingsAcc
  apply foldl_preserve (fun acc => (keysOf acc).Nodup)
  · simp [keysOf]
  · intro acc inv hacc
    unfold famStepInvestor
    apply foldl_preserve (fun acc => (keysOf acc).Nodup) _ _ _ hacc
    intro acc st h
    exact keys_nodup_famUpd _ _ _ _ _ _ h

theorem owners_ne_nil_familyHoldingsAcc (env : MarketEnv) (invs : List Investor) :
    ∀ pr ∈ familyHoldingsAcc env invs, pr.2.owners ≠ [] := by
  unfold familyHoldingsAcc
  refine foldl_preserve (fun (acc : List (String × FamilyHoldingAcc)) => ∀ pr ∈ acc, pr.2.owners ≠ []) _ _ _ (by simp) ?_
  intro acc inv hacc
  unfold famStepInvestor
  refine foldl_preserve (fun (acc : List (String × FamilyHoldingAcc)) => ∀ pr ∈ acc, pr.2.owners ≠ []) _ _ _ hacc ?_
  intro acc st h
  unfold famStepStock
  generalize st.symbol = sym
  generalize st.quantity = q
  generalize stockValue env st = v
  generalize stockTotalCost st = c
  induction acc with
  | nil =>
    intro pr hpr
    simp [famUpd] at hpr
    subst hpr
    simp
  | cons p rest ih =>
    obtain ⟨ks, d⟩ := p
    intro pr hpr
    by_cases hs : ks = sym
    · subst hs
      simp only [famUpd, if_pos rfl] at hpr
      rcases List.mem_cons.mp hpr with heq | hmem
      · subst heq
        simp
      · exact h pr (List.mem_cons_of_mem _ hmem)
    · simp only [famUpd, if_neg hs] at hpr
      rcases List.mem_cons.mp hpr with heq | hmem
      · subst heq
        exact h _ (by simp)
      · exact ih (fun pr hpr => h pr (List.mem_cons_of_mem _ hpr)) pr hmem

/-- The per-symbol value recorded in the accumulator sums all processed lots:
total family value equals the sum of the accumulator values. -/
def valuesSum (acc : List (String × FamilyHoldingAcc)) : ℚ :=
  (acc.map (fun p => p.2.value)).sum

theorem valuesSum_famUpd (acc : List (String × FamilyHoldingAcc))
    (sym name : String) (q v c : ℚ) :
    valuesSum (famUpd acc sym name q v c) = valuesSum acc + v := by
  induction acc with
  | nil => simp [famUpd, valuesSum]
  | cons p rest ih =>
    obtain ⟨s, d⟩ := p
    by_cases hs : s = sym
    · subst hs
      simp [famUpd, valuesSum]
      ring
    · simp only [famUpd, if_neg hs, valuesSum, List.map_cons, List.sum_cons] at ih ⊢
      rw [ih]
      ring

theorem valuesSum_foldl_stocks (env : MarketEnv) (name : String)
    (stocks : List Stock) (acc : List (String × FamilyHoldingAcc)) :
    valuesSum (stocks.foldl (famStepStock env name) acc) =
      valuesSum acc + memberTotalValue env stocks := by
  induction stocks generalizing acc with
  | nil => simp [memberTotalValue]
  | cons st rest ih =>
    rw [List.foldl_cons, ih]
    show valuesSum (famUpd acc st.symbol name _ _ _) + _ = _
    rw [valuesSum_famUpd]
    simp [memberTotalValue]
    ring

theorem valuesSum_familyHoldingsAcc (env : MarketEnv) (invs : List Investor) :
    valuesSum (familyHoldingsAcc env invs) = familyTotalValue env invs := by
  unfold familyHoldingsAcc
  have : ∀ acc, valuesSum (invs.foldl (famStepInvestor env) acc) =
      valuesSum acc + familyTotalValue env invs := by
    induction invs with
    | nil => simp [familyTotalValue]
    | cons inv rest ih =>
      intro acc
      rw [List.foldl_cons]
      show valuesSum (rest.foldl (famStepInvestor env) (inv.stocks.foldl (famStepStock env inv.name) acc)) = _
      rw [ih, valuesSum_foldl_stocks]
      simp [familyTotalValue]
      ring
  rw [this []]
  simp [valuesSum]

theorem countSym_le_one {stocks : List Stock}
    (h : (stocks.map (fun st => st.symbol)).Nodup) (s : String) :
    countSym stocks s ≤ 1 := by
  have hc : countSym stocks s = (stocks.map (fun st => st.symbol)).count s := by
    rw [List.count, List.countP_map]
    rfl
  rw [hc]
  exact List.nodup_iff_count_le_one.mp h s

theorem flatMap_replicate_eq_filter_map (invs : List Investor) (s : String)
    (h : ∀ inv ∈ invs, countSym inv.stocks s ≤ 1) :
    invs.flatMap (fun inv => List.replicate (countSym inv.stocks s) inv.name) =
      (invs.filter (fun inv => decide (0 < countSym inv.stocks s))).map (fun inv => inv.name) := by
  induction invs with
  | nil => simp
  | cons inv rest ih =>
    have hone := h inv (by simp)
    have hrest := ih (fun i hi => h i (by simp [hi]))
    rcases Nat.le_one_iff_eq_zero_or_eq_one.mp hone with h0 | h1
    · simp [List.flatMap_cons, h0, List.filter_cons, hrest]
    · simp [List.flatMap_cons, h1, List.filter_cons, hrest]

theorem holdersCount_eq_ownersOf_length (env : MarketEnv) (p : PortfolioInput) (s : String)
    (hsyms : ∀ inv ∈ p.investor, (inv.stocks.map (fun st => st.symbol)).Nodup) :
    (ownersOf (familyHoldingsAcc env p.investor) s).length = holdersCount p s := by
  rw [ownersOf_familyHoldingsAcc,
    flatMap_replicate_eq_filter_map _ _ (fun inv hi => countSym_le_one (hsyms inv hi) s)]
  simp [holdersCount]

/-- C1 counterexample: a structurally valid input in which the single member
A holds two lots of symbol R.  The code appends the owner name once per lot,
so R lands in the overlap map with a duplicated owner list even though only
one distinct member holds it. -/
def exEnvC1 : MarketEnv :=
  { price := fun _ => some 10
    stockMetrics := fun _ => { volatility := 0, expected_return := 0, sharpe_ratio := 0, beta := 1 }
    portfolioMetrics := fun _ => { volatility := 0, expected_return := 0, sharpe_ratio := 0, beta := 1 }
    corr := fun _ => [] }

def exInputC1 : PortfolioInput :=
  { email := "family@example.com"
    investor := [ { id := "INV001"
                    name := "A"
                    stocks := [ { symbol := "R", quantity := 1, cost_basis := 0 },
                                { symbol := "R", quantity := 2, cost_basis := 0 } ] } ] }

theorem exInputC1_valid : validPortfolioInput exInputC1 := by
  refine ⟨by simp [exInputC1], by simp [exInputC1], by simp [exInputC1], ?_⟩
  intro inv hinv
  simp only [exInputC1, List.mem_singleton] at hinv
  subst hinv
  refine ⟨by simp, by simp, by simp, ?_⟩
  intro st hst
  rcases List.mem_cons.mp hst with rfl | hst
  · exact ⟨by simp, by norm_num, by norm_num⟩
  · rcases List.mem_cons.mp hst with rfl | hst
    · exact ⟨by simp, by norm_num, by norm_num⟩
    · simp at hst

/-- C1, as stated, is false: on the valid input `exInputC1` the symbol R is
held by exactly one distinct member, yet it appears in the overlap map, and
its owner list `[A, A]` is not duplicate-free. -/
theorem overlap_single_member_counterexample :
    validPortfolioInput exInputC1 ∧
    holdersCount exInputC1 "R" = 1 ∧
    (process_portfolio_data exEnvC1 exInputC1).overlaps.map (fun q => q.1) = ["R"] ∧
    ∃ o, ("R", o) ∈ (process_portfolio_data exEnvC1 exInputC1).family_holdings ∧
      o.owners = ["A", "A"] ∧ ¬ o.owners.Nodup := by
  have hacc : familyHoldingsAcc exEnvC1 exInputC1.investor =
      [("R", { quantity := 3, value := 30, cost := 0, owners := ["A", "A"] })] := by
    norm_num [exInputC1, exEnvC1, familyHoldingsAcc, famStepInvestor, famStepStock, famUpd,
      stockValue, stockTotalCost, curPrice]
  refine ⟨exInputC1_valid, ?_, ?_, ?_⟩
  · norm_num [holdersCount, exInputC1, countSym, List.countP_cons]
  · simp [process_portfolio_data, overlappingStocks, hacc]
  · refine ⟨{ quantity := 3
              value := pyRound2 30
              weight := pyRound2 (if familyTotalValue exEnvC1 exInputC1.investor > 0 then
                30 / familyTotalValue exEnvC1 exInputC1.investor * 100 else 0)
              owners := ["A", "A"] }, ?_, rfl, by simp⟩
    simp [process_portfolio_data, familyHoldingsOut, hacc]

/-- C1, amended: for every valid portfolio input in which each member lists
every symbol at most once and member names are pairwise distinct, a symbol
appears in the overlap map iff at least 2 distinct members hold it, and every
family-holding owner list is non-empty and duplicate-free.  (Without these
two added preconditions the code appends one owner entry per lot, and
`overlap_single_member_counterexample` refutes the original claim.) -/
theorem overlaps_iff_two_distinct_holders (env : MarketEnv) (p : PortfolioInput)
    (hvalid : validPortfolioInput p)
    (hsyms : ∀ inv ∈ p.investor, (inv.stocks.map (fun st => st.symbol)).Nodup)
    (hnames : (p.investor.map (fun inv => inv.name)).Nodup) :
    (∀ s, s ∈ (process_portfolio_data env p).overlaps.map (fun q => q.1) ↔
      2 ≤ holdersCount p s) ∧
    (∀ q ∈ (process_portfolio_data env p).family_holdings,
      q.2.owners ≠ [] ∧ q.2.owners.Nodup) := by
  have hkeys := keys_nodup_familyHoldingsAcc env p.investor
  have hov : (process_portfolio_data env p).overlaps =
      overlappingStocks (familyHoldingsAcc env p.investor) := rfl
  have hfh : (process_portfolio_data env p).family_holdings =
      familyHoldingsOut (familyTotalValue env p.investor) (familyHoldingsAcc env p.investor) := rfl
  set acc := familyHoldingsAcc env p.investor with hacc
  have howners : ∀ {s : String} {d : FamilyHoldingAcc}, (s, d) ∈ acc →
      d.owners = ownersOf acc s := by
    intro s d hmem
    have := lookup_eq_some_of_mem hkeys hmem
    simp [ownersOf, this]
  have hnodup_owners : ∀ s, (ownersOf acc s).Nodup := by
    intro s
    rw [hacc, ownersOf_familyHoldingsAcc env p.investor s,
      flatMap_replicate_eq_filter_map _ _ (fun inv hi => countSym_le_one (hsyms inv hi) s)]
    have hsub : ((p.investor.filter (fun inv => decide (0 < countSym inv.stocks s))).map
        (fun inv => inv.name)).Sublist (p.investor.map (fun inv => inv.name)) :=
      (List.filter_sublist p.investor).map _
    exact hnames.sublist hsub
  constructor
  · intro s
    rw [hov]
    constructor
    · intro hmem
      rw [List.mem_map] at hmem
      obtain ⟨q, hq, hfst⟩ := hmem
      simp only [overlappingStocks, List.mem_map, List.mem_filter] at hq
      obtain ⟨pr, ⟨hpr, hlen⟩, hq⟩ := hq
      obtain ⟨s', d⟩ := pr
      have hs' : s' = s := by
        have := congrArg Prod.fst hq
        simpa [hfst] using this
      subst hs'
      have hlen2 : 1 < d.owners.length := by simpa using hlen
      rw [howners hpr] at hlen2
      rw [← holdersCount_eq_ownersOf_length env p s' hsyms, ← hacc]
      omega
    · intro hcount
      rw [← holdersCount_eq_ownersOf_length env p s hsyms, ← hacc] at hcount
      have hne : ownersOf acc s ≠ [] := by
        intro hnil
        rw [hnil] at hcount
        simp at hcount
      have hsome : (acc.lookup s).isSome := by
        by_contra hnone
        have : acc.lookup s = none := by
          cases hl : acc.lookup s
          · rfl
          · simp [hl] at hnone
        apply hne
        simp [ownersOf, this]
      obtain ⟨d, hd⟩ := Option.isSome_iff_exists.mp hsome
      have hmem : (s, d) ∈ acc := mem_of_lookup_eq_some hd
      have hdo : d.owners = ownersOf acc s := by simp [ownersOf, hd]
      have hlen : 1 < d.owners.length := by
        rw [hdo]
        omega
      rw [List.mem_map]
      refine ⟨(s, d.owners), ?_, rfl⟩
      simp only [overlappingStocks, List.mem_map, List.mem_filter]
      exact ⟨(s, d), ⟨hmem, by simpa using hlen⟩, rfl⟩
  · intro q hq
    rw [hfh] at hq
    simp only [familyHoldingsOut, List.mem_map] at hq
    obtain ⟨pr, hpr, rfl⟩ := hq
    refine ⟨owners_ne_nil_familyHoldingsAcc env p.investor pr hpr, ?_⟩
    show pr.2.owners.Nodup
    obtain ⟨s', d⟩ := pr
    rw [howners hpr]
    exact hnodup_owners s'

def wInputC1 : PortfolioInput :=
  { email := "family@example.com"
    investor := [ { id := "INV001"
                    name := "A"
                    stocks := [ { symbol := "RELIANCE", quantity := 1, cost_basis := 0 },
                                { symbol := "TCS", quantity := 2, cost_basis := 0 } ] },
                  { id := "INV002"
                    name := "B"
                    stocks := [ { symbol := "RELIANCE", quantity := 3, cost_basis := 0 } ] } ] }

/-- Witness for the amended C1 at the spec example: member A holds RELIANCE
and TCS, member B holds RELIANCE only. -/
theorem overlaps_iff_two_distinct_holders_witness :
    (∀ s, s ∈ (process_portfolio_data exEnvC1 wInputC1).overlaps.map (fun q => q.1) ↔
      2 ≤ holdersCount wInputC1 s) ∧
    (∀ q ∈ (process_portfolio_data exEnvC1 wInputC1).family_holdings,
      q.2.owners ≠ [] ∧ q.2.owners.Nodup) := by
  apply overlaps_iff_two_distinct_holders exEnvC1 wInputC1
  · refine ⟨by simp [wInputC1], by simp [wInputC1], by simp [wInputC1], ?_⟩
    intro inv hinv
    rcases List.mem_cons.mp hinv with rfl | hinv
    · refine ⟨by simp, by simp, by simp, ?_⟩
      intro st hst
      rcases List.mem_cons.mp hst with rfl | hst
      · exact ⟨by simp, by norm_num, by norm_num⟩
      · rcases List.mem_cons.mp hst with rfl | hst
        · exact ⟨by simp, by norm_num, by norm_num⟩
        · simp at hst
    · rcases List.mem_cons.mp hinv with rfl | hinv
      · refine ⟨by simp, by simp, by simp, ?_⟩
        intro st hst
        rcases List.mem_cons.mp hst with rfl | hst
        · exact ⟨by simp, by norm_num, by norm_num⟩
        · simp at hst
      · simp [wInputC1] at hinv
  · intro inv hinv
    rcases List.mem_cons.mp hinv with rfl | hinv
    · simp
    · rcases List.mem_cons.mp hinv with rfl | hinv
      · simp
      · simp [wInputC1] at hinv
  · simp [wInputC1]

theorem abs_sum_sub_le {α : Type} (l : List α) (f g : α → ℚ) (B : ℚ)
    (h : ∀ x ∈ l, |f x - g x| ≤ B) :
    |(l.map f).sum - (l.map g).sum| ≤ (l.length : ℚ) * B := by
  induction l with
  | nil => simp
  | cons x xs ih =>
    have hx := h x (by simp)
    have hxs := ih (fun y hy => h y (by simp [hy]))
    simp only [List.map_cons, List.sum_cons, List.length_cons]
    have htri : |f x + (xs.map f).sum - (g x + (xs.map g).sum)| ≤
        |f x - g x| + |(xs.map f).sum - (xs.map g).sum| := by
      have := abs_add (f x - g x) ((xs.map f).sum - (xs.map g).sum)
      calc |f x + (xs.map f).sum - (g x + (xs.map g).sum)| =
            |(f x - g x) + ((xs.map f).sum - (xs.map g).sum)| := by ring_nf
        _ ≤ _ := this
    push_cast
    calc |f x + (xs.map f).sum - (g x + (xs.map g).sum)| ≤
          |f x - g x| + |(xs.map f).sum - (xs.map g).sum| := htri
      _ ≤ B + (xs.length : ℚ) * B := add_le_add hx hxs
      _ = ((xs.length : ℚ) + 1) * B := by ring

theorem sum_map_mul_right {α : Type} (l : List α) (f : α → ℚ) (r : ℚ) :
    (l.map (fun x => f x * r)).sum = (l.map f).sum * r := by
  induction l with
  | nil => simp
  | cons x xs ih =>
    simp only [List.map_cons, List.sum_cons, ih]
    ring

theorem sum_map_div {α : Type} (l : List α) (f : α → ℚ) (c : ℚ) :
    (l.map (fun x => f x / c)).sum = (l.map f).sum / c := by
  simpa [div_eq_mul_inv] using sum_map_mul_right l f c⁻¹

theorem weights_processMemberHoldings (env : MarketEnv) (stocks : List Stock) :
    (processMemberHoldings env stocks).map (fun h => h.weight) =
      stocks.map (fun st => pyRound2 (if memberTotalValue env stocks > 0 then
        pyRound2 (stockValue env st) / memberTotalValue env stocks * 100 else 0)) := by
  simp only [processMemberHoldings, List.map_map]
  rfl

/-- C2: for every member portfolio produced by `process_portfolio_data` with
positive member total value, the fractional holding weights (the rounded
percentage weights divided by 100, exactly the values handed to
`calculate_portfolio_metrics`) sum to 1 up to the rounding tolerance
`n * (1 + 100/total) / 20000` accumulated by the two two-decimal roundings
per holding; and when the member total value is 0 every weight is exactly 0
(the guard prevents the division, so no NaN can arise). -/
theorem member_weights_sum (env : MarketEnv) (p : PortfolioInput) (inv : Investor)
    (hinv : inv ∈ p.investor) :
    processMember env inv ∈ (process_portfolio_data env p).members ∧
    (0 < memberTotalValue env inv.stocks →
      |((processMember env inv).holdings.map (fun h => h.weight / 100)).sum - 1| ≤
        ((processMember env inv).holdings.length : ℚ) *
          (1 + 100 / memberTotalValue env inv.stocks) / 20000) ∧
    (memberTotalValue env inv.stocks = 0 →
      ∀ h ∈ (processMember env inv).holdings, h.weight = 0) := by
  have hhold : (processMember env inv).holdings = processMemberHoldings env inv.stocks := rfl
  refine ⟨?_, ?_, ?_⟩
  · show _ ∈ p.investor.map (processMember env)
    exact List.mem_map_of_mem _ hinv
  · intro hT
    set T := memberTotalValue env inv.stocks with hTdef
    have hTne : T ≠ 0 := ne_of_gt hT
    have hlen : (processMemberHoldings env inv.stocks).length = inv.stocks.length := by
      simp [processMemberHoldings]
    have hw : (processMemberHoldings env inv.stocks).map (fun h => h.weight) =
        inv.stocks.map (fun st => pyRound2 (pyRound2 (stockValue env st) / T * 100)) := by
      rw [weights_processMemberHoldings]
      apply List.map_congr_left
      intro st _
      rw [if_pos hT]
    have hB : ∀ st ∈ inv.stocks,
        |pyRound2 (pyRound2 (stockValue env st) / T * 100) - stockValue env st * (100 / T)| ≤
          (1 + 100 / T) / 200 := by
      intro st _
      set v := stockValue env st
      set Y := pyRound2 v / T * 100 with hY
      have h1 : |pyRound2 Y - Y| ≤ 1/200 := abs_pyRound2_sub Y
      have hYe : Y = pyRound2 v * (100 / T) := by
        rw [hY, div_mul_eq_mul_div, mul_div_assoc]
      have h2eq : Y - v * (100 / T) = (pyRound2 v - v) * (100 / T) := by
        rw [hYe]
        ring
      have h2 : |Y - v * (100 / T)| ≤ (1/200) * (100 / T) := by
        rw [h2eq, abs_mul, abs_of_pos (by positivity : (0:ℚ) < 100 / T)]
        exact mul_le_mul_of_nonneg_right (abs_pyRound2_sub v) (by positivity)
      calc |pyRound2 Y - v * (100 / T)| =
            |(pyRound2 Y - Y) + (Y - v * (100 / T))| := by ring_nf
        _ ≤ |pyRound2 Y - Y| + |Y - v * (100 / T)| := abs_add _ _
        _ ≤ 1/200 + (1/200) * (100 / T) := add_le_add h1 h2
        _ = (1 + 100 / T) / 200 := by ring
    have hsumg : (inv.stocks.map (fun st => stockValue env st * (100 / T))).sum = 100 := by
      rw [sum_map_mul_right]
      show T * (100 / T) = 100
      field_simp
    have hbound := abs_sum_sub_le inv.stocks
      (fun st => pyRound2 (pyRound2 (stockValue env st) / T * 100))
      (fun st => stockValue env st * (100 / T)) ((1 + 100 / T) / 200) hB
    rw [hsumg] at hbound
    rw [hhold, sum_map_div, hw, hlen]
    have habs : |(inv.stocks.map (fun st => pyRound2 (pyRound2 (stockValue env st) / T * 100))).sum / 100 - 1| =
        |(inv.stocks.map (fun st => pyRound2 (pyRound2 (stockValue env st) / T * 100))).sum - 100| / 100 := by
      rw [← abs_of_pos (show (0:ℚ) < 100 by norm_num), ← abs_div]
      congr 1
      field_simp
    rw [habs]
    rw [div_le_iff₀ (by norm_num : (0:ℚ) < 100)]
    calc |(inv.stocks.map (fun st => pyRound2 (pyRound2 (stockValue env st) / T * 100))).sum - 100|
        ≤ (inv.stocks.length : ℚ) * ((1 + 100 / T) / 200) := hbound
      _ = (inv.stocks.length : ℚ) * (1 + 100 / T) / 20000 * 100 := by ring
  · intro hT0 h hmem
    rw [hhold] at hmem
    simp only [processMemberHoldings, List.map_map, List.mem_map] at hmem
    obtain ⟨st, _, rfl⟩ := hmem
    show pyRound2 (if memberTotalValue env inv.stocks > 0 then _ else 0) = 0
    rw [hT0]
    simp [pyRound2_zero]

def wInvC2 : Investor :=
  { id := "INV001", name := "A", stocks := [ { symbol := "X", quantity := 1, cost_basis := 0 } ] }

def wInputC2 : PortfolioInput := { email := "f@e.co", investor := [wInvC2] }

/-- Witness for C2 at a one-stock member with price 10 (member total 10). -/
theorem member_weights_sum_witness :
    processMember exEnvC1 wInvC2 ∈ (process_portfolio_data exEnvC1 wInputC2).members ∧
    |((processMember exEnvC1 wInvC2).holdings.map (fun h => h.weight / 100)).sum - 1| ≤
      ((processMember exEnvC1 wInvC2).holdings.length : ℚ) *
        (1 + 100 / memberTotalValue exEnvC1 wInvC2.stocks) / 20000 := by
  have H := member_weights_sum exEnvC1 wInputC2 wInvC2 (by simp [wInputC2])
  exact ⟨H.1, H.2.1 (by norm_num [memberTotalValue, stockValue, curPrice, wInvC2, exEnvC1])⟩

def exEnvC7 : MarketEnv :=
  { price := fun _ => some (1/250)
    stockMetrics := fun _ => { volatility := 0, expected_return := 0, sharpe_ratio := 0, beta := 1 }
    portfolioMetrics := fun _ => { volatility := 0, expected_return := 0, sharpe_ratio := 0, beta := 1 }
    corr := fun _ => [] }

def exInputC7 : PortfolioInput :=
  { email := "f@e.co"
    investor := [ { id := "INV001"
                    name := "A"
                    stocks := [ { symbol := "X", quantity := 1, cost_basis := 0 },
                                { symbol := "Y", quantity := 1, cost_basis := 0 } ] } ] }

def zeroScenarioC7 : Scenario := { name := "Zero", stock_changes := [("X", 0), ("Y", 0)] }

/-- C7, as stated, is false: `simulate_scenarios` sums the per-symbol
two-decimal-rounded values while `total_value` rounds the unrounded family
total, so with two holdings worth 0.004 each a zero-shock scenario yields
scenario_value 0 against current_value 0.01, a value change of -0.01 and a
pct change of -100. -/
theorem zero_shock_roundtrip_counterexample :
    (∀ s ∈ (process_portfolio_data exEnvC7 exInputC7).family_holdings.map (fun q => q.1),
      scenarioShock zeroScenarioC7 s = 0) ∧
    ∃ r, simulate_scenarios (process_portfolio_data exEnvC7 exInputC7) [zeroScenarioC7] = [r] ∧
      r.scenario_value = 0 ∧ r.current_value = 1/100 ∧ r.value_change = -(1/100) ∧
      r.pct_change = -100 ∧ r.scenario_value ≠ r.current_value ∧
      r.value_change ≠ 0 ∧ r.pct_change ≠ 0 := by
  have hr1 : pyRound2 (1/250) = 0 := by norm_num [pyRound2, pyRoundInt_eq]
  have hr2 : pyRound2 (1/125) = 1/100 := by norm_num [pyRound2, pyRoundInt_eq]
  have hr3 : pyRound2 (50 : ℚ) = 50 := pyRound2_eq_self_of_mul _ 5000 (by norm_num)
  have hacc : familyHoldingsAcc exEnvC7 exInputC7.investor =
      [("X", { quantity := 1, value := 1/250, cost := 0, owners := ["A"] }),
       ("Y", { quantity := 1, value := 1/250, cost := 0, owners := ["A"] })] := by
    norm_num [exInputC7, exEnvC7, familyHoldingsAcc, famStepInvestor, famStepStock, famUpd,
      stockValue, stockTotalCost, curPrice]
    decide
  have hT : familyTotalValue exEnvC7 exInputC7.investor = 1/125 := by
    norm_num [familyTotalValue, memberTotalValue, stockValue, curPrice, exEnvC7, exInputC7]
  have hfh : (process_portfolio_data exEnvC7 exInputC7).family_holdings =
      [("X", { quantity := 1, value := 0, weight := 50, owners := ["A"] }),
       ("Y", { quantity := 1, value := 0, weight := 50, owners := ["A"] })] := by
    show familyHoldingsOut (familyTotalValue exEnvC7 exInputC7.investor)
      (familyHoldingsAcc exEnvC7 exInputC7.investor) = _
    rw [hacc, hT]
    have hweight : pyRound2 (if (1:ℚ)/125 > 0 then 1/250 / (1/125) * 100 else 0) = 50 := by
      rw [if_pos (by norm_num)]
      rw [show (1:ℚ)/250 / (1/125) * 100 = 50 by norm_num]
      exact hr3
    simp [familyHoldingsOut, hr1, hweight]
    constructor
    · rw [show (250:ℚ)⁻¹ = 1/250 by norm_num]
      exact hr1
    · rw [show (250:ℚ)⁻¹ * 125 * 100 = 50 by norm_num]
      exact hr3
  have hcv : (process_portfolio_data exEnvC7 exInputC7).family.total_value = 1/100 := by
    show pyRound2 (familyTotalValue exEnvC7 exInputC7.investor) = 1/100
    rw [hT, hr2]
  constructor
  · intro s hs
    rw [hfh] at hs
    simp at hs
    rcases hs with rfl | rfl <;> simp [scenarioShock, zeroScenarioC7, List.lookup]
  · refine ⟨{ scenario := "Zero"
              current_value := 1/100
              scenario_value := 0
              value_change := -(1/100)
              pct_change := -100 }, ?_, by norm_num, by norm_num, by norm_num, by norm_num,
      by norm_num, by norm_num, by norm_num⟩
    simp only [simulate_scenarios, List.map_cons, List.map_nil, hfh, hcv]
    have hshX : scenarioShock zeroScenarioC7 "X" = 0 := by
      simp [scenarioShock, zeroScenarioC7, List.lookup]
    have hshY : scenarioShock zeroScenarioC7 "Y" = 0 := by
      simp [scenarioShock, zeroScenarioC7, List.lookup]
    simp [hshX, hshY, zeroScenarioC7]

theorem exists_int_sum_div100 {l : List ℚ} (h : ∀ x ∈ l, ∃ k : ℤ, x = (k : ℚ) / 100) :
    ∃ K : ℤ, l.sum = (K : ℚ) / 100 := by
  induction l with
  | nil => exact ⟨0, by norm_num⟩
  | cons x xs ih =>
    obtain ⟨k, hk⟩ := h x (by simp)
    obtain ⟨K, hK⟩ := ih (fun y hy => h y (by simp [hy]))
    refine ⟨k + K, ?_⟩
    rw [List.sum_cons, hk, hK]
    push_cast
    ring

theorem sum_out_values_zero_shock (sc : Scenario) (famTotal : ℚ)
    (acc : List (String × FamilyHoldingAcc))
    (hsh : ∀ pr ∈ acc, scenarioShock sc pr.1 = 0)
    (hcl : ∀ pr ∈ acc, pyRound2 pr.2.value = pr.2.value) :
    ((familyHoldingsOut famTotal acc).map
      (fun q => q.2.value * (1 + scenarioShock sc q.1 / 100))).sum = valuesSum acc := by
  induction acc with
  | nil => simp [familyHoldingsOut, valuesSum]
  | cons pr rest ih =>
    have hshp := hsh pr (by simp)
    have hclp := hcl pr (by simp)
    have ihr := ih (fun y hy => hsh y (by simp [hy])) (fun y hy => hcl y (by simp [hy]))
    simp only [familyHoldingsOut, List.map_cons, List.sum_cons, valuesSum] at ihr ⊢
    rw [ihr, hshp, hclp]
    ring

/-- C7, amended: for every portfolio whose per-symbol family values are
exact two-decimal quantities (so that per-symbol rounding is lossless — the
general statement fails, see `zero_shock_roundtrip_counterexample`),
simulating a scenario that applies a 0% shock to every held symbol yields
scenario_value equal to the portfolio total_value, value_change 0 and
pct_change 0. -/
theorem zero_shock_roundtrip (env : MarketEnv) (p : PortfolioInput) (sc : Scenario)
    (hclean : ∀ q ∈ familyHoldingsAcc env p.investor, ∃ k : ℤ, q.2.value = (k : ℚ) / 100)
    (hshock : ∀ s ∈ (process_portfolio_data env p).family_holdings.map (fun q => q.1),
      scenarioShock sc s = 0) :
    simulate_scenarios (process_portfolio_data env p) [sc] =
      [{ scenario := sc.name
         current_value := (process_portfolio_data env p).family.total_value
         scenario_value := (process_portfolio_data env p).family.total_value
         value_change := 0
         pct_change := 0 }] := by
  set acc := familyHoldingsAcc env p.investor with hacc
  have hkeys_eq : (process_portfolio_data env p).family_holdings.map (fun q => q.1) =
      acc.map (fun pr => pr.1) := by
    show (familyHoldingsOut (familyTotalValue env p.investor) acc).map _ = _
    simp [familyHoldingsOut, List.map_map]
  have hsh : ∀ pr ∈ acc, scenarioShock sc pr.1 = 0 := by
    intro pr hpr
    apply hshock
    rw [hkeys_eq]
    exact List.mem_map_of_mem _ hpr
  have hcl : ∀ pr ∈ acc, pyRound2 pr.2.value = pr.2.value := by
    intro pr hpr
    obtain ⟨k, hk⟩ := hclean pr hpr
    exact pyRound2_eq_self_of_mul _ k hk
  have hfamT : valuesSum acc = familyTotalValue env p.investor :=
    valuesSum_familyHoldingsAcc env p.investor
  have htv : (process_portfolio_data env p).family.total_value =
      familyTotalValue env p.investor := by
    show pyRound2 (familyTotalValue env p.investor) = _
    obtain ⟨K, hK⟩ := exists_int_sum_div100
      (l := acc.map (fun pr => pr.2.value))
      (by
        intro x hx
        rw [List.mem_map] at hx
        obtain ⟨pr, hpr, rfl⟩ := hx
        exact hclean pr hpr)
    have : familyTotalValue env p.investor = (K : ℚ) / 100 := by
      rw [← hfamT]
      exact hK
    rw [this, pyRound2_eq_self_of_mul _ K rfl]
  have hsv : ((process_portfolio_data env p).family_holdings.map
      (fun q => q.2.value * (1 + scenarioShock sc q.1 / 100))).sum =
      familyTotalValue env p.investor := by
    show ((familyHoldingsOut (familyTotalValue env p.investor) acc).map _).sum = _
    rw [sum_out_values_zero_shock sc _ acc hsh hcl, hfamT]
  simp only [simulate_scenarios, List.map_cons, List.map_nil]
  rw [List.cons.injEq]
  refine ⟨?_, rfl⟩
  rw [ScenarioResult.mk.injEq]
  refine ⟨rfl, rfl, ?_, ?_, ?_⟩
  · rw [hsv, htv]
  · rw [hsv, htv]
    ring
  · rw [hsv, htv]
    split
    · rw [sub_self, zero_div, zero_mul]
    · rfl

def wScenarioC7 : Scenario := { name := "Zero", stock_changes := [("X", 0)] }

/-- Witness for the amended C7: one member holding one lot of X at price 10
(all values exact two-decimal quantities), zero shock on X. -/
theorem zero_shock_roundtrip_witness :
    simulate_scenarios (process_portfolio_data exEnvC1 wInputC2) [wScenarioC7] =
      [{ scenario := wScenarioC7.name
         current_value := (process_portfolio_data exEnvC1 wInputC2).family.total_value
         scenario_value := (process_portfolio_data exEnvC1 wInputC2).family.total_value
         value_change := 0
         pct_change := 0 }] := by
  have haccW : familyHoldingsAcc exEnvC1 wInputC2.investor =
      [("X", { quantity := 1, value := 10, cost := 0, owners := ["A"] })] := by
    norm_num [wInputC2, wInvC2, exEnvC1, familyHoldingsAcc, famStepInvestor, famStepStock,
      famUpd, stockValue, stockTotalCost, curPrice]
  apply zero_shock_roundtrip
  · intro q hq
    rw [haccW] at hq
    simp only [List.mem_singleton] at hq
    subst hq
    exact ⟨1000, by norm_num⟩
  · intro s hs
    have hkeys : (process_portfolio_data exEnvC1 wInputC2).family_holdings.map (fun q => q.1) =
        ["X"] := by
      show (familyHoldingsOut _ (familyHoldingsAcc exEnvC1 wInputC2.investor)).map _ = _
      rw [haccW]
      simp [familyHoldingsOut]
    rw [hkeys] at hs
    simp only [List.mem_singleton] at hs
    subst hs
    simp [scenarioShock, wScenarioC7, List.lookup]

/-! ## src/portfolio/optimizer.py : calculate_rebalancing_trades -/

/-- One current holding handed to `calculate_rebalancing_trades`. -/
structure CurrentHolding where
  symbol : String
  quantity : ℚ
  current_price : ℚ
  value : ℚ
deriving Repr, DecidableEq

/-- One emitted trade recommendation (optimizer.py lines 191-199). -/
structure Trade where
  symbol : String
  action : String
  quantity : ℚ
  value : ℚ
  current_weight : ℚ
  target_weight : ℚ
  weight_change : ℚ
deriving Repr, DecidableEq

/-- The first current holding whose symbol matches (the `next(...)` lookup of
optimizer.py line 170), projected to the value; 0 when the symbol is not
currently held. -/
def currentValueOf (current_holdings : List CurrentHolding) (symbol : String) : ℚ :=
  match current_holdings.find? (fun h => h.symbol == symbol) with
  | some h => h.value
  | none => 0

/-- The current price of the looked-up holding (0 when not held). -/
def currentPriceOf (current_holdings : List CurrentHolding) (symbol : String) : ℚ :=
  match current_holdings.find? (fun h => h.symbol == symbol) with
  | some h => h.current_price
  | none => 0

/-- The trade emitted for one target-weight entry (optimizer.py lines
166-199): `none` inside the 1% dead-band. -/
def tradeFor (current_holdings : List CurrentHolding) (total_value : ℚ)
    (symbol : String) (target_weight : ℚ) : Option Trade :=
  let target_value := total_value * target_weight
  let current_value := currentValueOf current_holdings symbol
  let current_price := currentPriceOf current_holdings symbol
  let value_diff := target_value - current_value
  if |value_diff| > total_value * (1/100) then
    some { symbol := symbol
           action := if value_diff > 0 then "BUY" else "SELL"
           quantity := |if current_price > 0 then value_diff / current_price else 0|
           value := |value_diff|
           current_weight := if total_value > 0 then current_value / total_value * 100 else 0
           target_weight := target_weight * 100
           weight_change := target_weight * 100 -
             (if total_value > 0 then current_value / total_value * 100 else 0) }
  else none

/-- Embedding of `calculate_rebalancing_trades(current_holdings,
target_weights, total_value)` (optimizer.py lines 154-204): one pass over the
target-weight map, then a stable sort by absolute trade value, descending. -/
def calculate_rebalancing_trades (current_holdings : List CurrentHolding)
    (target_weights : List (String × ℚ)) (total_value : ℚ) : List Trade :=
  (target_weights.filterMap (fun q => tradeFor current_holdings total_value q.1 q.2)).mergeSort
    (fun a b => |b.value| ≤ |a.value|)

theorem tradeFor_eq_some {current_holdings : List CurrentHolding} {total_value : ℚ}
    {s : String} {w : ℚ} {t : Trade}
    (h : tradeFor current_holdings total_value s w = some t) :
    t.symbol = s ∧
    total_value * (1/100) < |total_value * w - currentValueOf current_holdings s| ∧
    t.action = (if 0 < total_value * w - currentValueOf current_holdings s
      then "BUY" else "SELL") := by
  simp only [tradeFor] at h
  split at h
  · next hgt =>
    rw [Option.some.injEq] at h
    subst h
    exact ⟨rfl, hgt, rfl⟩
  · exact absurd h (by simp)

theorem nodup_keys_unique {targets : List (String × ℚ)}
    (hnd : (targets.map (fun q => q.1)).Nodup) {s : String} {a b : ℚ}
    (ha : (s, a) ∈ targets) (hb : (s, b) ∈ targets) : a = b := by
  induction targets with
  | nil => simp at ha
  | cons q rest ih =>
    simp only [List.map_cons, List.nodup_cons] at hnd
    rcases List.mem_cons.mp ha with rfl | ha2
    · rcases List.mem_cons.mp hb with hbeq | hb2
      · exact (Prod.mk.injEq .. ▸ hbeq.symm).2
      · exact absurd (List.mem_map_of_mem (fun q => q.1) hb2) (by simpa using hnd.1)
    · rcases List.mem_cons.mp hb with rfl | hb2
      · exact absurd (List.mem_map_of_mem (fun q => q.1) ha2) (by simpa using hnd.1)
      · exact ih hnd.2 ha2 hb2

/-- C8: for a target-weight map with distinct symbols, a symbol whose
target/current value difference is within 1% of the total portfolio value
gets no trade (the dead-band), and every emitted trade for a symbol carries
action BUY when the difference is positive and SELL when it is negative. -/
theorem rebalancing_dead_band (current_holdings : List CurrentHolding)
    (targets : List (String × ℚ)) (total_value : ℚ)
    (hnd : (targets.map (fun q => q.1)).Nodup) (symbol : String) (tw : ℚ)
    (hmem : (symbol, tw) ∈ targets) :
    (|total_value * tw - currentValueOf current_holdings symbol| ≤ total_value * (1/100) →
      ∀ t ∈ calculate_rebalancing_trades current_holdings targets total_value,
        t.symbol ≠ symbol) ∧
    (∀ t ∈ calculate_rebalancing_trades current_holdings targets total_value,
      t.symbol = symbol →
      (0 < total_value * tw - currentValueOf current_holdings symbol → t.action = "BUY") ∧
      (total_value * tw - currentValueOf current_holdings symbol < 0 → t.action = "SELL")) := by
  have hmem_trades : ∀ t ∈ calculate_rebalancing_trades current_holdings targets total_value,
      ∃ q ∈ targets, tradeFor current_holdings total_value q.1 q.2 = some t := by
    intro t ht
    rw [calculate_rebalancing_trades, List.mem_mergeSort, List.mem_filterMap] at ht
    exact ht
  constructor
  · intro hband t ht hsym
    obtain ⟨q, hq, hsome⟩ := hmem_trades t ht
    obtain ⟨hts, hgt, _⟩ := tradeFor_eq_some hsome
    have hq1 : q.1 = symbol := by rw [← hts, hsym]
    have hq2 : q.2 = tw := by
      apply nodup_keys_unique hnd _ hmem
      rw [← hq1]
      exact hq
    rw [hq1, hq2] at hgt
    linarith [hband, hgt]
  · intro t ht hsym
    obtain ⟨q, hq, hsome⟩ := hmem_trades t ht
    obtain ⟨hts, _, hact⟩ := tradeFor_eq_some hsome
    have hq1 : q.1 = symbol := by rw [← hts, hsym]
    have hq2 : q.2 = tw := by
      apply nodup_keys_unique hnd _ hmem
      rw [← hq1]
      exact hq
    rw [hq1, hq2] at hact
    constructor
    · intro hpos
      rw [hact, if_pos hpos]
    · intro hneg
      rw [hact, if_neg (by linarith)]

/-- Witness for C8: symbol A with current value 100 and target value 100 out
of a total of 200 sits inside the dead-band, so no trade for A is emitted. -/
theorem rebalancing_dead_band_witness :
    |200 * (1/2) - currentValueOf
        [{ symbol := "A", quantity := 10, current_price := 10, value := 100 }] "A"| ≤
      200 * (1/100) ∧
    ∀ t ∈ calculate_rebalancing_trades
        [{ symbol := "A", quantity := 10, current_price := 10, value := 100 }]
        [("A", 1/2), ("B", 1/4)] 200,
      t.symbol ≠ "A" := by
  have H := rebalancing_dead_band
    [{ symbol := "A", quantity := 10, current_price := 10, value := 100 }]
    [("A", 1/2), ("B", 1/4)] 200 (by simp) "A" (1/2) (by simp)
  have hband : |(200 : ℚ) * (1/2) - currentValueOf
      [{ symbol := "A", quantity := 10, current_price := 10, value := 100 }] "A"| ≤
      200 * (1/100) := by norm_num [currentValueOf, List.find?]
  exact ⟨hband, H.1 hband⟩
